import Mathlib

/-!
Verification of the merge-gpx scripts: the geometric distance model, the
merge-point search, the splicer/retimer and the confirmation matcher, as
implemented in `mergeGpx.ts` (and the retiming loop shared with the
single-file script).  Timestamps are modelled as integer milliseconds
since the epoch (the value of `Date.parse` on the stored ISO string, and
the value serialised back by `toISOString`); coordinates and distances
are real numbers.  Console output is not modelled: the terminal states
of the search carry exactly the data that decides what is written.
-/

namespace MergeGpx

/-- Latitude/longitude pair, as held by the `LatLng` class (the parsed
`@_lat` / `@_lon` attribute strings). -/
structure LatLng where
  lat : ℝ
  lng : ℝ

/-- One `<trkpt>` element: `time` in ms since the epoch, elevation `ele`,
and the `@_lat` / `@_lon` coordinates. -/
structure TrkPrt where
  time : ℤ
  ele : ℝ
  lat : ℝ
  lng : ℝ

instance : Inhabited TrkPrt := ⟨⟨0, 0, 0, 0⟩⟩

/-- `LatLng.fromTrkPrt`: the convenience factory constructor. -/
def LatLng.fromTrkPrt (trkPrt : TrkPrt) : LatLng := ⟨trkPrt.lat, trkPrt.lng⟩

/-- `LatLng.isBetween` (mergeGpx.ts lines 69-80): true iff this point's
latitude lies between the two latitudes (in either order) OR its
longitude lies between the two longitudes (in either order). -/
def LatLng.isBetween (self latLng1 latLng2 : LatLng) : Prop :=
  (latLng1.lat ≤ self.lat ∧ self.lat ≤ latLng2.lat) ∨
  (latLng2.lat ≤ self.lat ∧ self.lat ≤ latLng1.lat) ∨
  (latLng1.lng ≤ self.lng ∧ self.lng ≤ latLng2.lng) ∨
  (latLng2.lng ≤ self.lng ∧ self.lng ≤ latLng1.lng)

/-- `Math.atan2 y x`: the argument of the point `(x, y)`, in `(-π, π]`. -/
noncomputable def atan2 (y x : ℝ) : ℝ := Complex.arg ⟨x, y⟩

/-- `haversineDist` (mergeGpx.ts lines 216-229): great-circle distance in
meters via the haversine formula with Earth radius 6371e3 m. -/
noncomputable def haversineDist (latLng1 latLng2 : LatLng) : ℝ :=
  let R : ℝ := 6371e3
  let φ1 := latLng1.lat * Real.pi / 180
  let φ2 := latLng2.lat * Real.pi / 180
  let Δφ := (latLng2.lat - latLng1.lat) * Real.pi / 180
  let Δlam := (latLng2.lng - latLng1.lng) * Real.pi / 180
  let a := Real.sin (Δφ / 2) * Real.sin (Δφ / 2) +
    Real.cos φ1 * Real.cos φ2 * Real.sin (Δlam / 2) * Real.sin (Δlam / 2)
  let c := 2 * atan2 (Real.sqrt a) (Real.sqrt (1 - a))
  R * c

/-- The retiming loop shared by `mergeFiles` (mergeGpx.ts lines 179-185)
and the single-file script (lines 25-32): point `index` receives the
instant `startTimeMs + index * 1000` where
`startTimeMs = timeToReachMs - pts.length * 1000`. -/
def retime (timeToReachMs : ℤ) (pts : List TrkPrt) : List TrkPrt :=
  let startTimeMs : ℤ := timeToReachMs - (pts.length : ℤ) * 1000
  pts.mapIdx fun index trkPrt => { trkPrt with time := startTimeMs + (index : ℤ) * 1000 }

/-- `mergeFiles` (mergeGpx.ts lines 171-194): retime the accepted prefix
`toMerge` against the end track's first point's original timestamp and
concatenate with the (unchanged) end track.  The written output is the
resulting `trkpt` list. -/
def mergeFiles (endPts toMerge : List TrkPrt) : List TrkPrt :=
  retime (endPts.headI).time toMerge ++ endPts

/-- Data reported for one qualifying candidate: its begin-track index,
its haversine distance to the end track's first point, whether it was
flagged as the running minimum, and the reported between-flag. -/
structure Candidate where
  index : ℕ
  dist : ℝ
  isMinDist : Prop
  inBetween : Prop

/-- Terminal state of `findMergePoint`: either one output file was
written with the given point sequence, or the scan exhausted the begin
track (reporting the informational "No merge point found" message) with
nothing written. -/
inductive MergeResult where
  | written (output : List TrkPrt)
  | exhausted

/-- Number of output files written in a terminal state. -/
def writeCount : MergeResult → ℕ
  | .written _ => 1
  | .exhausted => 0

open Classical in
/-- The scan loop of `findMergePoint` (mergeGpx.ts lines 117-166) over
the remaining begin points, carrying the current index, the running
minimum distance (`⊤` models `Number.POSITIVE_INFINITY`) and the
accumulated prefix `toMerge`.  Returns the list of prompted candidates
and the terminal state; `confirm i` is the operator's answer when
prompted at begin index `i`. -/
noncomputable def findMergePointLoop (firstEndLatLng : LatLng) (thresholdMeters : ℝ)
    (confirm : ℕ → Bool) (endPts : List TrkPrt) :
    List TrkPrt → ℕ → EReal → List TrkPrt → List Candidate × MergeResult
  | [], _, _, _ => ([], .exhausted)
  | trkPrt :: rest, index, minDist, toMerge =>
    let toMerge1 := toMerge ++ [trkPrt]
    let latLng := LatLng.fromTrkPrt trkPrt
    let dist := haversineDist firstEndLatLng latLng
    if dist ≤ thresholdMeters then
      let isMinDist : Prop := (dist : EReal) ≤ minDist
      let minDist1 : EReal := if (dist : EReal) ≤ minDist then (dist : EReal) else minDist
      let inBetween : Prop :=
        match rest with
        | nextPrt :: _ => LatLng.isBetween firstEndLatLng latLng (LatLng.fromTrkPrt nextPrt)
        | [] => False
      let cand : Candidate := ⟨index, dist, isMinDist, inBetween⟩
      if confirm index then
        ([cand], .written (mergeFiles endPts toMerge1))
      else
        let r := findMergePointLoop firstEndLatLng thresholdMeters confirm endPts
          rest (index + 1) minDist1 toMerge1
        (cand :: r.1, r.2)
    else
      findMergePointLoop firstEndLatLng thresholdMeters confirm endPts
        rest (index + 1) minDist toMerge1

/-- The end track's first point as a `LatLng` (`firstEndLatLng`). -/
def endFirst (endPts : List TrkPrt) : LatLng := LatLng.fromTrkPrt endPts.headI

/-- `findMergePoint` (mergeGpx.ts lines 100-169): scan the begin track
in index order against the end track's first point. -/
noncomputable def findMergePoint (beginPts endPts : List TrkPrt) (thresholdMeters : ℝ)
    (confirm : ℕ → Bool) : List Candidate × MergeResult :=
  findMergePointLoop (endFirst endPts) thresholdMeters confirm endPts beginPts 0 ⊤ []

/-- Haversine distance from the end track's first point to the begin
point at index `i`. -/
noncomputable def distAt (beginPts endPts : List TrkPrt) (i : ℕ) : ℝ :=
  haversineDist (endFirst endPts) (LatLng.fromTrkPrt (beginPts.getD i default))

open Classical in
/-- Minimum qualifying haversine distance over a list of scanned begin
points (`⊤`, i.e. the `POSITIVE_INFINITY` initialisation, when none
qualifies). -/
noncomputable def minQualOf (e : LatLng) (thresholdMeters : ℝ) : List TrkPrt → EReal
  | [] => ⊤
  | trkPrt :: rest =>
    let d := haversineDist e (LatLng.fromTrkPrt trkPrt)
    if d ≤ thresholdMeters then min (d : EReal) (minQualOf e thresholdMeters rest)
    else minQualOf e thresholdMeters rest

/-- Minimum distance over the qualifying candidates scanned strictly
before begin index `i` (`⊤` when there is none). -/
noncomputable def minQualDist (beginPts endPts : List TrkPrt) (thresholdMeters : ℝ)
    (i : ℕ) : EReal :=
  minQualOf (endFirst endPts) thresholdMeters (beginPts.take i)

/-- The unanchored search performed by `answer.match("(y|yes)")`
(mergeGpx.ts line 205): the regex is tried at every position, and at a
given position the first alternative `y` succeeds exactly when the
character there is `y` (the `yes` alternative is subsumed by it). -/
def matchYOrYes : List Char → Bool
  | [] => false
  | c :: rest => c == 'y' || matchYOrYes rest

/-- `userConfirm` (mergeGpx.ts lines 196-211): resolve true iff the
lowercased answer matches the pattern `(y|yes)` somewhere. -/
def userConfirm (answer : List Char) : Bool := matchYOrYes (answer.map Char.toLower)

/-- Sample end-track point at the origin with timestamp 100000 ms. -/
def endPt0 : TrkPrt := ⟨100000, 0, 0, 0⟩

/-- Sample begin-track point at the origin. -/
def beginPt0 : TrkPrt := ⟨0, 0, 0, 0⟩

/-- Second sample begin-track point, also at the origin. -/
def beginPt1 : TrkPrt := ⟨1000, 5, 0, 0⟩

/-- Sample end track. -/
def endPts0 : List TrkPrt := [endPt0]

/-- Sample one-point begin track. -/
def beginPts0 : List TrkPrt := [beginPt0]

/-- Sample two-point begin track. -/
def beginPts1 : List TrkPrt := [beginPt0, beginPt1]

theorem atan2_nonneg {y : ℝ} (x : ℝ) (hy : 0 ≤ y) : 0 ≤ atan2 y x := by
  rw [atan2]
  exact Complex.arg_nonneg_iff.mpr hy

theorem atan2_zero_one : atan2 0 1 = 0 := by
  have h1 : (⟨1, 0⟩ : ℂ) = 1 := by
    apply Complex.ext <;> simp
  rw [atan2, h1, Complex.arg_one]

theorem haversineDist_self (l : LatLng) : haversineDist l l = 0 := by
  simp [haversineDist, atan2_zero_one]

theorem haversineDist_comm (l1 l2 : LatLng) : haversineDist l1 l2 = haversineDist l2 l1 := by
  simp only [haversineDist]
  have hφ : (l1.lat - l2.lat) * Real.pi / 180 / 2 =
      -((l2.lat - l1.lat) * Real.pi / 180 / 2) := by ring
  have hlam : (l1.lng - l2.lng) * Real.pi / 180 / 2 =
      -((l2.lng - l1.lng) * Real.pi / 180 / 2) := by ring
  simp only [hφ, hlam, Real.sin_neg]
  ring_nf

theorem haversineDist_nonneg (l1 l2 : LatLng) : 0 ≤ haversineDist l1 l2 := by
  simp only [haversineDist]
  refine mul_nonneg (by norm_num) (mul_nonneg (by norm_num) ?_)
  exact atan2_nonneg _ (Real.sqrt_nonneg _)

theorem haversineDist_pole (lng1 lng2 : ℝ) :
    haversineDist ⟨90, lng1⟩ ⟨90, lng2⟩ = 0 := by
  simp only [haversineDist]
  have h2 : (90 : ℝ) * Real.pi / 180 = Real.pi / 2 := by ring
  simp [h2, Real.cos_pi_div_two, atan2_zero_one]

theorem mem_interval_or (x u v : ℝ) :
    ((u ≤ x ∧ x ≤ v) ∨ (v ≤ x ∧ x ≤ u)) ↔ (min u v ≤ x ∧ x ≤ max u v) := by
  rcases le_total u v with h | h
  · rw [min_eq_left h, max_eq_right h]
    constructor
    · rintro (⟨h1, h2⟩ | ⟨h1, h2⟩)
      · exact ⟨h1, h2⟩
      · exact ⟨le_trans h h1, le_trans h2 h⟩
    · exact fun hx => Or.inl hx
  · rw [min_eq_right h, max_eq_left h]
    constructor
    · rintro (⟨h1, h2⟩ | ⟨h1, h2⟩)
      · exact ⟨le_trans h h1, le_trans h2 h⟩
      · exact ⟨h1, h2⟩
    · exact fun hx => Or.inr hx

/-- C5: for all points p, a, b, `isBetween p a b` holds if and only if
p's latitude lies in the closed interval
[min(a.lat,b.lat), max(a.lat,b.lat)] OR p's longitude lies in the closed
interval [min(a.lng,b.lng), max(a.lng,b.lng)]; in particular
isBetween((0,0), (-1,-1), (1,1)) is true and
isBetween((5,5), (0,0), (1,1)) is false. -/
theorem isBetween_spec :
    (∀ p a b : LatLng, (p.isBetween a b ↔
      (min a.lat b.lat ≤ p.lat ∧ p.lat ≤ max a.lat b.lat) ∨
      (min a.lng b.lng ≤ p.lng ∧ p.lng ≤ max a.lng b.lng))) ∧
    LatLng.isBetween ⟨0, 0⟩ ⟨-1, -1⟩ ⟨1, 1⟩ ∧
    ¬ LatLng.isBetween ⟨5, 5⟩ ⟨0, 0⟩ ⟨1, 1⟩ := by
  refine ⟨fun p a b => ?_, ?_, ?_⟩
  · rw [LatLng.isBetween, ← mem_interval_or, ← mem_interval_or]
    tauto
  · norm_num [LatLng.isBetween]
  · norm_num [LatLng.isBetween]

/-- C8 (amended): the haversine distance is non-negative and symmetric,
and `distance(a,a) = 0`; but distance zero does not imply the two inputs
are bit-for-bit equal (see the counterexample at latitude 90). -/
theorem haversine_props : ∀ a b : LatLng,
    0 ≤ haversineDist a b ∧ haversineDist a b = haversineDist b a ∧
      haversineDist a a = 0 :=
  fun a b => ⟨haversineDist_nonneg a b, haversineDist_comm a b, haversineDist_self a⟩

/-- C8 counterexample: the points (90, 0) and (90, 180) are not
bit-for-bit equal, yet their haversine distance is 0 (the
`cos φ1 * cos φ2` factor vanishes at the pole), refuting "zero iff
`a == b` bit-for-bit". -/
theorem haversine_zero_counterexample :
    haversineDist ⟨90, 0⟩ ⟨90, 180⟩ = 0 ∧ (⟨90, 0⟩ : LatLng) ≠ ⟨90, 180⟩ := by
  refine ⟨haversineDist_pole 0 180, fun h => ?_⟩
  have : (0 : ℝ) = 180 := congrArg LatLng.lng h
  norm_num at this

/-- C10: `userConfirm` resolves true if and only if the lowercased
answer contains the letter `y` anywhere (the pattern `(y|yes)` is an
unanchored, case-insensitive-by-lowercasing substring match), so answers
such as "nay" and "any" confirm the merge, and it resolves false
otherwise (e.g. "no"). -/
theorem userConfirm_spec :
    (∀ answer : List Char, userConfirm answer = true ↔ 'y' ∈ answer.map Char.toLower) ∧
    userConfirm ['n', 'a', 'y'] = true ∧
    userConfirm ['a', 'n', 'y'] = true ∧
    userConfirm ['Y', 'E', 'S'] = true ∧
    userConfirm ['n', 'o'] = false := by
  refine ⟨fun answer => ?_, rfl, rfl, rfl, rfl⟩
  rw [userConfirm]
  induction answer with
  | nil => simp [matchYOrYes]
  | cons c rest ih =>
    simp only [matchYOrYes, List.map_cons, Bool.or_eq_true, beq_iff_eq, List.mem_cons, ih]
    exact or_congr eq_comm Iff.rfl

theorem getD_eq_get (l : List TrkPrt) : ∀ (i : ℕ) (h : i < l.length),
    l.getD i default = l.get ⟨i, h⟩ := by
  induction l with
  | nil => intro i h; simp at h
  | cons a l ih =>
    intro i h
    cases i with
    | zero => rfl
    | succ i =>
      rw [List.getD_cons_succ, ih i (by simpa using h)]
      rfl

theorem mapIdx_getD (f : ℕ → TrkPrt → TrkPrt) (l : List TrkPrt) (i : ℕ)
    (h : i < l.length) :
    (l.mapIdx f).getD i default = f i (l.getD i default) := by
  have h1 : i < (l.mapIdx f).length := by simpa [List.length_mapIdx] using h
  rw [getD_eq_get _ i h1, getD_eq_get l i h, List.get_mapIdx]

theorem length_retime (T : ℤ) (pts : List TrkPrt) :
    (retime T pts).length = pts.length := by
  simp [retime, List.length_mapIdx]

theorem retime_getD (T : ℤ) (pts : List TrkPrt) (i : ℕ) (h : i < pts.length) :
    (retime T pts).getD i default =
      { pts.getD i default with
        time := T - (pts.length : ℤ) * 1000 + (i : ℤ) * 1000 } := by
  simp only [retime]
  exact mapIdx_getD _ pts i h

/-- C1: for an accepted prefix of N ≥ 1 points and target arrival
instant T (the parsed timestamp of the end track's first point, in ms),
the retimer assigns the point at 0-based index i the instant
T - (N - i) seconds, so the timestamps strictly increase by exactly one
second, the first equals T - N seconds and the last equals T - 1
second. -/
theorem retimer_timestamps (T : ℤ) (pts : List TrkPrt) (hN : 1 ≤ pts.length) :
    (retime T pts).length = pts.length ∧
    (∀ i, i < pts.length →
      ((retime T pts).getD i default).time = T - ((pts.length : ℤ) - (i : ℤ)) * 1000) ∧
    (∀ i, i + 1 < pts.length →
      ((retime T pts).getD (i + 1) default).time
        = ((retime T pts).getD i default).time + 1000) ∧
    ((retime T pts).getD 0 default).time = T - (pts.length : ℤ) * 1000 ∧
    ((retime T pts).getD (pts.length - 1) default).time = T - 1000 := by
  have key : ∀ i, i < pts.length →
      ((retime T pts).getD i default).time = T - ((pts.length : ℤ) - (i : ℤ)) * 1000 := by
    intro i h
    rw [retime_getD T pts i h]
    show T - (pts.length : ℤ) * 1000 + (i : ℤ) * 1000 = _
    ring
  refine ⟨length_retime T pts, key, ?_, ?_, ?_⟩
  · intro i h
    rw [key (i + 1) h, key i (by omega)]
    push_cast
    ring
  · rw [key 0 hN]
    norm_num
  · rw [key (pts.length - 1) (by omega)]
    have hc : ((pts.length - 1 : ℕ) : ℤ) = (pts.length : ℤ) - 1 := by omega
    rw [hc]
    ring

/-- C1 witness: retiming a concrete 3-point track with T = 5000 ms gives
the point at index 2 the instant 4000 ms = T - 1 second. -/
theorem retimer_timestamps_witness :
    ((retime 5000 [beginPt0, beginPt0, beginPt0]).getD 2 default).time = 4000 := by
  have h := (retimer_timestamps 5000 [beginPt0, beginPt0, beginPt0] (by decide)).2.1
    2 (by decide)
  norm_num at h
  exact h

/-- C9: retiming changes only the timestamp field: every point of the
prefix keeps its latitude, longitude and elevation unmodified. -/
theorem retime_frame (T : ℤ) (pts : List TrkPrt) (i : ℕ) (h : i < pts.length) :
    ((retime T pts).getD i default).lat = (pts.getD i default).lat ∧
    ((retime T pts).getD i default).lng = (pts.getD i default).lng ∧
    ((retime T pts).getD i default).ele = (pts.getD i default).ele := by
  rw [retime_getD T pts i h]
  exact ⟨rfl, rfl, rfl⟩

/-- C9 witness: the elevation of a concrete retimed point is its input
elevation. -/
theorem retime_frame_witness :
    ((retime 5000 [beginPt1]).getD 0 default).ele
      = (([beginPt1] : List TrkPrt).getD 0 default).ele :=
  (retime_frame 5000 [beginPt1] 0 (by decide)).2.2

theorem ite_eq_min (a b : EReal) {h : Decidable (a ≤ b)} :
    (if a ≤ b then a else b) = min a b := by
  rcases le_or_lt a b with hab | hab
  · rw [if_pos hab, min_eq_left hab]
  · rw [if_neg (not_le.mpr hab), min_eq_right hab.le]

theorem forall_cons_shift (P : ℕ → TrkPrt → Prop) (p : TrkPrt) (rest : List TrkPrt)
    (idx : ℕ) :
    (∀ k, k < (p :: rest).length → P (idx + k) ((p :: rest).getD k default)) ↔
      (P idx p ∧ ∀ k, k < rest.length → P (idx + 1 + k) (rest.getD k default)) := by
  constructor
  · intro h
    refine ⟨by simpa using h 0 (by simp), fun k hk => ?_⟩
    have h2 := h (k + 1) (by simp only [List.length_cons]; omega)
    have e1 : idx + (k + 1) = idx + 1 + k := by omega
    rw [e1] at h2
    simpa using h2
  · rintro ⟨h0, hrest⟩ k hk
    cases k with
    | zero => simpa using h0
    | succ k =>
      have e1 : idx + (k + 1) = idx + 1 + k := by omega
      rw [List.getD_cons_succ, e1]
      exact hrest k (by simp only [List.length_cons] at hk; omega)

theorem loop_exhausted_iff (e : LatLng) (t : ℝ) (confirm : ℕ → Bool)
    (endPts : List TrkPrt) :
    ∀ (remaining : List TrkPrt) (idx : ℕ) (m : EReal) (acc : List TrkPrt),
      ((findMergePointLoop e t confirm endPts remaining idx m acc).2 = MergeResult.exhausted ↔
        ∀ k, k < remaining.length →
          ¬(haversineDist e (LatLng.fromTrkPrt (remaining.getD k default)) ≤ t ∧
            confirm (idx + k) = true)) := by
  intro remaining
  induction remaining with
  | nil =>
    intro idx m acc
    simp [findMergePointLoop]
  | cons p rest ih =>
    intro idx m acc
    have hshift :
        (∀ k, k < (p :: rest).length →
          ¬(haversineDist e (LatLng.fromTrkPrt ((p :: rest).getD k default)) ≤ t ∧
            confirm (idx + k) = true)) ↔
        (¬(haversineDist e (LatLng.fromTrkPrt p) ≤ t ∧ confirm idx = true) ∧
          ∀ k, k < rest.length →
            ¬(haversineDist e (LatLng.fromTrkPrt (rest.getD k default)) ≤ t ∧
              confirm (idx + 1 + k) = true)) :=
      forall_cons_shift
        (fun n q => ¬(haversineDist e (LatLng.fromTrkPrt q) ≤ t ∧ confirm n = true))
        p rest idx
    simp only [findMergePointLoop]
    by_cases hd : haversineDist e (LatLng.fromTrkPrt p) ≤ t
    · rw [if_pos hd]
      by_cases hcf : confirm idx = true
      · rw [if_pos hcf]
        dsimp only
        rw [hshift]
        simp [hd, hcf]
      · rw [if_neg hcf]
        dsimp only
        rw [ih, hshift]
        simp [hcf]
    · rw [if_neg hd]
      rw [ih, hshift]
      simp [hd]

theorem loop_written (e : LatLng) (t : ℝ) (confirm : ℕ → Bool) (endPts : List TrkPrt) :
    ∀ (remaining : List TrkPrt) (idx : ℕ) (m : EReal) (acc : List TrkPrt) (k : ℕ),
      k < remaining.length →
      (∀ j, j < k →
        ¬(haversineDist e (LatLng.fromTrkPrt (remaining.getD j default)) ≤ t ∧
          confirm (idx + j) = true)) →
      haversineDist e (LatLng.fromTrkPrt (remaining.getD k default)) ≤ t →
      confirm (idx + k) = true →
      (findMergePointLoop e t confirm endPts remaining idx m acc).2 =
        MergeResult.written (mergeFiles endPts (acc ++ remaining.take (k + 1))) := by
  intro remaining
  induction remaining with
  | nil =>
    intro idx m acc k hk
    simp at hk
  | cons p rest ih =>
    intro idx m acc k hk hmin hq hc
    simp only [findMergePointLoop]
    cases k with
    | zero =>
      have hd : haversineDist e (LatLng.fromTrkPrt p) ≤ t := by simpa using hq
      have hc0 : confirm idx = true := by simpa using hc
      rw [if_pos hd, if_pos hc0]
      simp [List.take_succ_cons]
    | succ k =>
      have h0 : ¬(haversineDist e (LatLng.fromTrkPrt p) ≤ t ∧ confirm idx = true) := by
        simpa using hmin 0 (Nat.succ_pos k)
      have hq1 : haversineDist e (LatLng.fromTrkPrt (rest.getD k default)) ≤ t := by
        simpa using hq
      have hc1 : confirm (idx + 1 + k) = true := by
        have e1 : idx + (k + 1) = idx + 1 + k := by omega
        rw [e1] at hc
        exact hc
      have hmin1 : ∀ j, j < k →
          ¬(haversineDist e (LatLng.fromTrkPrt (rest.getD j default)) ≤ t ∧
            confirm (idx + 1 + j) = true) := by
        intro j hj
        have h2 := hmin (j + 1) (by omega)
        have e1 : idx + (j + 1) = idx + 1 + j := by omega
        rw [e1] at h2
        simpa using h2
      have hk1 : k < rest.length := by
        simp only [List.length_cons] at hk
        omega
      have happ : acc ++ (p :: rest).take (k + 1 + 1) = (acc ++ [p]) ++ rest.take (k + 1) := by
        simp [List.take_succ_cons]
      by_cases hd : haversineDist e (LatLng.fromTrkPrt p) ≤ t
      · have hcf : ¬(confirm idx = true) := fun hcc => h0 ⟨hd, hcc⟩
        rw [if_pos hd, if_neg hcf]
        dsimp only
        rw [ih (idx + 1) _ (acc ++ [p]) k hk1 hmin1 hq1 hc1, happ]
      · rw [if_neg hd]
        rw [ih (idx + 1) m (acc ++ [p]) k hk1 hmin1 hq1 hc1, happ]

theorem loop_log_complete (e : LatLng) (t : ℝ) (confirm : ℕ → Bool) (endPts : List TrkPrt) :
    ∀ (remaining : List TrkPrt) (idx : ℕ) (m : EReal) (acc : List TrkPrt) (k : ℕ),
      k < remaining.length →
      (∀ j, j < k →
        ¬(haversineDist e (LatLng.fromTrkPrt (remaining.getD j default)) ≤ t ∧
          confirm (idx + j) = true)) →
      haversineDist e (LatLng.fromTrkPrt (remaining.getD k default)) ≤ t →
      ∃ c ∈ (findMergePointLoop e t confirm endPts remaining idx m acc).1,
        c.index = idx + k := by
  intro remaining
  induction remaining with
  | nil =>
    intro idx m acc k hk
    simp at hk
  | cons p rest ih =>
    intro idx m acc k hk hmin hq
    simp only [findMergePointLoop]
    cases k with
    | zero =>
      have hd : haversineDist e (LatLng.fromTrkPrt p) ≤ t := by simpa using hq
      rw [if_pos hd]
      by_cases hcf : confirm idx = true
      · rw [if_pos hcf]
        dsimp only
        exact ⟨_, List.mem_singleton_self _, by simp⟩
      · rw [if_neg hcf]
        dsimp only
        exact ⟨_, List.mem_cons_self _ _, by simp⟩
    | succ k =>
      have h0 : ¬(haversineDist e (LatLng.fromTrkPrt p) ≤ t ∧ confirm idx = true) := by
        simpa using hmin 0 (Nat.succ_pos k)
      have hq1 : haversineDist e (LatLng.fromTrkPrt (rest.getD k default)) ≤ t := by
        simpa using hq
      have hmin1 : ∀ j, j < k →
          ¬(haversineDist e (LatLng.fromTrkPrt (rest.getD j default)) ≤ t ∧
            confirm (idx + 1 + j) = true) := by
        intro j hj
        have h2 := hmin (j + 1) (by omega)
        have e1 : idx + (j + 1) = idx + 1 + j := by omega
        rw [e1] at h2
        simpa using h2
      have hk1 : k < rest.length := by
        simp only [List.length_cons] at hk
        omega
      have hidx : idx + 1 + k = idx + (k + 1) := by omega
      by_cases hd : haversineDist e (LatLng.fromTrkPrt p) ≤ t
      · have hcf : ¬(confirm idx = true) := fun hcc => h0 ⟨hd, hcc⟩
        rw [if_pos hd, if_neg hcf]
        dsimp only
        obtain ⟨c, hcmem, hcidx⟩ := ih (idx + 1)
          (if (haversineDist e (LatLng.fromTrkPrt p) : EReal) ≤ m
            then (haversineDist e (LatLng.fromTrkPrt p) : EReal) else m)
          (acc ++ [p]) k hk1 hmin1 hq1
        exact ⟨c, List.mem_cons_of_mem _ hcmem, by rw [hcidx, hidx]⟩
      · rw [if_neg hd]
        obtain ⟨c, hcmem, hcidx⟩ := ih (idx + 1) m (acc ++ [p]) k hk1 hmin1 hq1
        exact ⟨c, hcmem, by rw [hcidx, hidx]⟩

theorem head_sound_aux (e : LatLng) (t : ℝ) (confirm : ℕ → Bool) (m : EReal) (idx : ℕ)
    (p : TrkPrt) (rest : List TrkPrt) (c : Candidate)
    (hd : haversineDist e (LatLng.fromTrkPrt p) ≤ t)
    (hidx : c.index = idx)
    (hdist : c.dist = haversineDist e (LatLng.fromTrkPrt p))
    (hmin : c.isMinDist ↔ (haversineDist e (LatLng.fromTrkPrt p) : EReal) ≤ m)
    (hbet : c.inBetween ↔ (rest ≠ [] ∧
      LatLng.isBetween e (LatLng.fromTrkPrt p) (LatLng.fromTrkPrt (rest.getD 0 default)))) :
    ∃ k, k < (p :: rest).length ∧
      (∀ j, j < k →
        ¬(haversineDist e (LatLng.fromTrkPrt ((p :: rest).getD j default)) ≤ t ∧
          confirm (idx + j) = true)) ∧
      haversineDist e (LatLng.fromTrkPrt ((p :: rest).getD k default)) ≤ t ∧
      c.index = idx + k ∧
      c.dist = haversineDist e (LatLng.fromTrkPrt ((p :: rest).getD k default)) ∧
      (c.isMinDist ↔
        (haversineDist e (LatLng.fromTrkPrt ((p :: rest).getD k default)) : EReal) ≤
          min m (minQualOf e t ((p :: rest).take k))) ∧
      (c.inBetween ↔ (k + 1 < (p :: rest).length ∧
        LatLng.isBetween e (LatLng.fromTrkPrt ((p :: rest).getD k default))
          (LatLng.fromTrkPrt ((p :: rest).getD (k + 1) default)))) := by
  refine ⟨0, by simp, fun j hj => absurd hj (Nat.not_lt_zero j), by simpa using hd,
    by simpa using hidx, by simpa using hdist, ?_, ?_⟩
  · rw [hmin]
    simp only [List.getD_cons_zero, List.take_zero, minQualOf]
    rw [min_eq_left le_top]
  · rw [hbet]
    cases rest with
    | nil => simp
    | cons nextPrt rest2 =>
      simp only [List.getD_cons_zero, List.getD_cons_succ, List.length_cons, ne_eq]
      constructor
      · rintro ⟨h1, h2⟩
        exact ⟨by omega, h2⟩
      · rintro ⟨h1, h2⟩
        exact ⟨by simp, h2⟩

theorem loop_log_sound (e : LatLng) (t : ℝ) (confirm : ℕ → Bool) (endPts : List TrkPrt) :
    ∀ (remaining : List TrkPrt) (idx : ℕ) (m : EReal) (acc : List TrkPrt) (c : Candidate),
      c ∈ (findMergePointLoop e t confirm endPts remaining idx m acc).1 →
      ∃ k, k < remaining.length ∧
        (∀ j, j < k →
          ¬(haversineDist e (LatLng.fromTrkPrt (remaining.getD j default)) ≤ t ∧
            confirm (idx + j) = true)) ∧
        haversineDist e (LatLng.fromTrkPrt (remaining.getD k default)) ≤ t ∧
        c.index = idx + k ∧
        c.dist = haversineDist e (LatLng.fromTrkPrt (remaining.getD k default)) ∧
        (c.isMinDist ↔
          (haversineDist e (LatLng.fromTrkPrt (remaining.getD k default)) : EReal) ≤
            min m (minQualOf e t (remaining.take k))) ∧
        (c.inBetween ↔ (k + 1 < remaining.length ∧
          LatLng.isBetween e (LatLng.fromTrkPrt (remaining.getD k default))
            (LatLng.fromTrkPrt (remaining.getD (k + 1) default)))) := by
  intro remaining
  induction remaining with
  | nil =>
    intro idx m acc c hc
    simp [findMergePointLoop] at hc
  | cons p rest ih =>
    intro idx m acc c hc
    simp only [findMergePointLoop] at hc
    by_cases hd : haversineDist e (LatLng.fromTrkPrt p) ≤ t
    · rw [if_pos hd] at hc
      by_cases hcf : confirm idx = true
      · rw [if_pos hcf] at hc
        dsimp only at hc
        rw [List.mem_singleton] at hc
        subst hc
        refine head_sound_aux e t confirm m idx p rest _ hd rfl rfl Iff.rfl ?_
        cases rest with
        | nil => simp
        | cons a l => simp
      · rw [if_neg hcf] at hc
        dsimp only at hc
        rw [List.mem_cons] at hc
        rcases hc with hc | hc
        · subst hc
          refine head_sound_aux e t confirm m idx p rest _ hd rfl rfl Iff.rfl ?_
          cases rest with
          | nil => simp
          | cons a l => simp
        · obtain ⟨k, hk, hmin1, hq1, hidx, hdist, hminiff, hbet⟩ := ih (idx + 1)
            (if (haversineDist e (LatLng.fromTrkPrt p) : EReal) ≤ m
              then (haversineDist e (LatLng.fromTrkPrt p) : EReal) else m)
            (acc ++ [p]) c hc
          refine ⟨k + 1, ?_, ?_, ?_, ?_, ?_, ?_, ?_⟩
          · simp only [List.length_cons]
            omega
          · intro j hj
            cases j with
            | zero =>
              intro hx
              exact hcf (by simpa using hx.2)
            | succ j =>
              have e1 : idx + (j + 1) = idx + 1 + j := by omega
              rw [List.getD_cons_succ, e1]
              exact hmin1 j (by omega)
          · simpa using hq1
          · rw [hidx]
            omega
          · simpa using hdist
          · rw [List.getD_cons_succ, List.take_succ_cons]
            have hQ : minQualOf e t (p :: rest.take k) =
                min ((haversineDist e (LatLng.fromTrkPrt p) : ℝ) : EReal)
                  (minQualOf e t (rest.take k)) := by
              simp only [minQualOf]
              rw [if_pos hd]
            rw [hQ, hminiff, ite_eq_min, min_assoc, min_left_comm]
          · rw [hbet, List.getD_cons_succ, List.getD_cons_succ]
            simp only [List.length_cons]
            constructor
            · rintro ⟨h1, h2⟩
              exact ⟨by omega, h2⟩
            · rintro ⟨h1, h2⟩
              exact ⟨by omega, h2⟩
    · rw [if_neg hd] at hc
      obtain ⟨k, hk, hmin1, hq1, hidx, hdist, hminiff, hbet⟩ := ih (idx + 1) m
        (acc ++ [p]) c hc
      refine ⟨k + 1, ?_, ?_, ?_, ?_, ?_, ?_, ?_⟩
      · simp only [List.length_cons]
        omega
      · intro j hj
        cases j with
        | zero =>
          intro hx
          exact hd (by simpa using hx.1)
        | succ j =>
          have e1 : idx + (j + 1) = idx + 1 + j := by omega
          rw [List.getD_cons_succ, e1]
          exact hmin1 j (by omega)
      · simpa using hq1
      · rw [hidx]
        omega
      · simpa using hdist
      · rw [List.getD_cons_succ, List.take_succ_cons]
        have hQ : minQualOf e t (p :: rest.take k) = minQualOf e t (rest.take k) := by
          simp only [minQualOf]
          rw [if_neg hd]
        rw [hQ, hminiff]
      · rw [hbet, List.getD_cons_succ, List.getD_cons_succ]
        simp only [List.length_cons]
        constructor
        · rintro ⟨h1, h2⟩
          exact ⟨by omega, h2⟩
        · rintro ⟨h1, h2⟩
          exact ⟨by omega, h2⟩

theorem getD_append_left (l1 l2 : List TrkPrt) (i : ℕ) (h : i < l1.length) :
    (l1 ++ l2).getD i default = l1.getD i default := by
  induction l1 generalizing i with
  | nil => simp at h
  | cons a l ih =>
    cases i with
    | zero => rfl
    | succ i =>
      simp only [List.cons_append, List.getD_cons_succ]
      exact ih i (by simpa using h)

/-- C3: a begin point at index i that the scan reaches (no earlier index
both qualified and was confirmed) is offered as a merge candidate — the
confirmation prompt is shown — if and only if its haversine distance to
the end track's first point is ≤ thresholdMeters; skipped points are
still appended to the accumulated prefix, so a confirmation at index i
hands over exactly the points at indices 0..i. -/
theorem scan_candidates (beginPts endPts : List TrkPrt) (t : ℝ) (confirm : ℕ → Bool)
    (i : ℕ) (hi : i < beginPts.length)
    (hreach : ∀ j, j < i → ¬(distAt beginPts endPts j ≤ t ∧ confirm j = true)) :
    ((∃ c ∈ (findMergePoint beginPts endPts t confirm).1, c.index = i) ↔
      distAt beginPts endPts i ≤ t) ∧
    (distAt beginPts endPts i ≤ t → confirm i = true →
      (findMergePoint beginPts endPts t confirm).2 =
        MergeResult.written (mergeFiles endPts (beginPts.take (i + 1)))) := by
  constructor
  · constructor
    · rintro ⟨c, hcmem, hcidx⟩
      obtain ⟨k, hk, _, hq1, hidx, _, _, _⟩ :=
        loop_log_sound (endFirst endPts) t confirm endPts beginPts 0 ⊤ [] c hcmem
      have hki : c.index = k := by simpa using hidx
      have hik : k = i := by rw [← hki, hcidx]
      subst hik
      exact hq1
    · intro hq
      obtain ⟨c, hcmem, hcidx⟩ := loop_log_complete (endFirst endPts) t confirm endPts
        beginPts 0 ⊤ [] i hi
        (fun j hj => by simpa [distAt] using hreach j hj)
        (by simpa [distAt] using hq)
      exact ⟨c, hcmem, by simpa using hcidx⟩
  · intro hq hc
    have hw := loop_written (endFirst endPts) t confirm endPts beginPts 0 ⊤ [] i hi
      (fun j hj => by simpa [distAt] using hreach j hj)
      (by simpa [distAt] using hq) (by simpa using hc)
    simpa [findMergePoint] using hw

/-- C2: when the candidate at index i is confirmed (and the scan reached
it), the produced output is the retimed prefix of begin indices 0..i
concatenated with the full end track: its length is
(i+1) + length(endTrack), the last prefix timestamp is exactly 1 second
(1000 ms) before the end track's first point's original timestamp, and
the end-track points are carried into the output unchanged. -/
theorem splice_shape (beginPts endPts : List TrkPrt) (t : ℝ) (confirm : ℕ → Bool)
    (i : ℕ) (hi : i < beginPts.length)
    (hq : distAt beginPts endPts i ≤ t) (hc : confirm i = true)
    (hreach : ∀ j, j < i → ¬(distAt beginPts endPts j ≤ t ∧ confirm j = true)) :
    ∃ out, (findMergePoint beginPts endPts t confirm).2 = MergeResult.written out ∧
      out = retime (endPts.headI).time (beginPts.take (i + 1)) ++ endPts ∧
      out.length = (i + 1) + endPts.length ∧
      (out.getD i default).time = (endPts.headI).time - 1000 ∧
      out.drop (i + 1) = endPts := by
  have hlen : (beginPts.take (i + 1)).length = i + 1 := by
    rw [List.length_take]
    omega
  have hw := loop_written (endFirst endPts) t confirm endPts beginPts 0 ⊤ [] i hi
    (fun j hj => by simpa [distAt] using hreach j hj)
    (by simpa [distAt] using hq) (by simpa using hc)
  refine ⟨mergeFiles endPts (beginPts.take (i + 1)),
    by simpa [findMergePoint] using hw, rfl, ?_, ?_, ?_⟩
  · simp [mergeFiles, length_retime, hlen]
  · have hlt : i < (retime (endPts.headI).time (beginPts.take (i + 1))).length := by
      rw [length_retime, hlen]
      omega
    have ht := (retimer_timestamps (endPts.headI).time (beginPts.take (i + 1))
      (by rw [hlen]; omega)).2.1 i (by rw [hlen]; omega)
    rw [hlen] at ht
    simp only [mergeFiles]
    rw [getD_append_left _ _ i hlt, ht]
    push_cast
    ring
  · simp only [mergeFiles]
    exact List.drop_left' (by rw [length_retime, hlen])

/-- C4: a prompted candidate is flagged as the running minimum if and
only if its distance is ≤ the minimum distance over all previously
scanned qualifying candidates, the minimum being initialised to positive
infinity (modelled by ⊤); the comparison is `<=`, so a candidate tying
the previous minimum is flagged — the most-recent-wins tie-break. -/
theorem minFlag_spec (beginPts endPts : List TrkPrt) (t : ℝ) (confirm : ℕ → Bool)
    (c : Candidate) (hc : c ∈ (findMergePoint beginPts endPts t confirm).1) :
    c.dist = distAt beginPts endPts c.index ∧
    (c.isMinDist ↔ (c.dist : EReal) ≤ minQualDist beginPts endPts t c.index) := by
  obtain ⟨k, hk, _, _, hidx, hdist, hminiff, _⟩ :=
    loop_log_sound (endFirst endPts) t confirm endPts beginPts 0 ⊤ [] c hc
  have hki : c.index = k := by simpa using hidx
  rw [min_eq_right le_top] at hminiff
  constructor
  · rw [hki, hdist]
    rfl
  · rw [hki, hdist]
    exact hminiff

/-- C6 (amended): for a prompted candidate at index i, the reported
between-flag equals `isBetween(endFirstPoint, P, next)` when a next
begin point exists (i + 1 < N); for a candidate at the last begin index
the flag is always false — the next-point check is skipped, not
evaluated as `isBetween(endFirstPoint, P, P)`. -/
theorem betweenFlag_spec (beginPts endPts : List TrkPrt) (t : ℝ) (confirm : ℕ → Bool)
    (c : Candidate) (hc : c ∈ (findMergePoint beginPts endPts t confirm).1) :
    c.index < beginPts.length ∧
    (c.inBetween ↔ (c.index + 1 < beginPts.length ∧
      LatLng.isBetween (endFirst endPts)
        (LatLng.fromTrkPrt (beginPts.getD c.index default))
        (LatLng.fromTrkPrt (beginPts.getD (c.index + 1) default)))) := by
  obtain ⟨k, hk, _, _, hidx, _, _, hbet⟩ :=
    loop_log_sound (endFirst endPts) t confirm endPts beginPts 0 ⊤ [] c hc
  have hki : c.index = k := by simpa using hidx
  rw [hki]
  exact ⟨hk, hbet⟩

/-- C7: the output is all-or-nothing, written at most once, and only
when some reached qualifying candidate is confirmed: the scan terminates
Exhausted (zero writes) iff no begin index both qualifies and is
confirmed — in particular for an empty begin track, and for a begin
track with no point within thresholdMeters of the end track's first
point. -/
theorem search_all_or_nothing (beginPts endPts : List TrkPrt) (t : ℝ)
    (confirm : ℕ → Bool) :
    writeCount (findMergePoint beginPts endPts t confirm).2 ≤ 1 ∧
    ((findMergePoint beginPts endPts t confirm).2 = MergeResult.exhausted ↔
      ¬ ∃ i, i < beginPts.length ∧ distAt beginPts endPts i ≤ t ∧ confirm i = true) ∧
    (beginPts = [] →
      (findMergePoint beginPts endPts t confirm).2 = MergeResult.exhausted) ∧
    ((∀ i, i < beginPts.length → ¬ distAt beginPts endPts i ≤ t) →
      (findMergePoint beginPts endPts t confirm).2 = MergeResult.exhausted ∧
      writeCount (findMergePoint beginPts endPts t confirm).2 = 0) := by
  have hiff := loop_exhausted_iff (endFirst endPts) t confirm endPts beginPts 0 ⊤ []
  have hiff2 : (findMergePoint beginPts endPts t confirm).2 = MergeResult.exhausted ↔
      ¬ ∃ i, i < beginPts.length ∧ distAt beginPts endPts i ≤ t ∧ confirm i = true := by
    constructor
    · intro h
      rintro ⟨i, hi, hq, hcf⟩
      exact (hiff.mp h) i hi ⟨hq, by simpa using hcf⟩
    · intro h
      refine hiff.mpr fun k hk => ?_
      rintro ⟨hq, hcf⟩
      exact h ⟨k, hk, hq, by simpa using hcf⟩
  refine ⟨?_, hiff2, fun hnil => ?_, fun hnone => ?_⟩
  · cases hres : (findMergePoint beginPts endPts t confirm).2
    all_goals simp [writeCount]
  · refine hiff2.mpr ?_
    rintro ⟨i, hi, -, -⟩
    rw [hnil] at hi
    simp at hi
  · have h1 : (findMergePoint beginPts endPts t confirm).2 = MergeResult.exhausted := by
      refine hiff2.mpr ?_
      rintro ⟨i, hi, hq, -⟩
      exact hnone i hi hq
    refine ⟨h1, ?_⟩
    rw [h1]
    rfl

theorem distAt00 : distAt beginPts0 endPts0 0 = 0 := by
  simp [distAt, endFirst, beginPts0, endPts0, beginPt0, endPt0, LatLng.fromTrkPrt,
    List.headI, haversineDist_self]

theorem log0_eq :
    (findMergePoint beginPts0 endPts0 10 (fun _ => false)).1 = [⟨0, 0, True, False⟩] := by
  norm_num [findMergePoint, findMergePointLoop, endFirst, endPts0, endPt0, beginPts0,
    beginPt0, LatLng.fromTrkPrt, List.headI, haversineDist_self]

theorem log1_eq :
    (findMergePoint beginPts1 endPts0 10 (fun _ => false)).1 =
      [⟨0, 0, True, LatLng.isBetween ⟨0, 0⟩ ⟨0, 0⟩ ⟨0, 0⟩⟩, ⟨1, 0, True, False⟩] := by
  norm_num [findMergePoint, findMergePointLoop, endFirst, endPts0, endPt0, beginPts1,
    beginPt0, beginPt1, LatLng.fromTrkPrt, List.headI, haversineDist_self]

/-- C3 witness: with a one-point begin track located exactly at the end
track's first point and an always-yes operator, confirming index 0 hands
over exactly the prefix 0..0. -/
theorem scan_candidates_witness :
    (findMergePoint beginPts0 endPts0 10 (fun _ => true)).2 =
      MergeResult.written (mergeFiles endPts0 (beginPts0.take 1)) := by
  have h := scan_candidates beginPts0 endPts0 10 (fun _ => true) 0 (by decide)
    (fun j hj => absurd hj (Nat.not_lt_zero j))
  exact h.2 (by rw [distAt00]; norm_num) rfl

/-- C2 witness: confirming the sole candidate of a concrete merge leads
to exactly one written output. -/
theorem splice_shape_witness :
    writeCount (findMergePoint beginPts0 endPts0 5 (fun _ => true)).2 = 1 := by
  obtain ⟨out, hw, -, -, -, -⟩ := splice_shape beginPts0 endPts0 5 (fun _ => true) 0
    (by decide) (by rw [distAt00]; norm_num) rfl
    (fun j hj => absurd hj (Nat.not_lt_zero j))
  rw [hw]
  rfl

/-- C4 witness: the sole prompted candidate of a concrete scan carries
the minimum flag determined by the ⊤-initialised running minimum. -/
theorem minFlag_witness :
    (⟨0, 0, True, False⟩ : Candidate).dist =
      distAt beginPts0 endPts0 (Candidate.index ⟨0, 0, True, False⟩) ∧
    ((⟨0, 0, True, False⟩ : Candidate).isMinDist ↔
      ((⟨0, 0, True, False⟩ : Candidate).dist : EReal) ≤
        minQualDist beginPts0 endPts0 10 (Candidate.index ⟨0, 0, True, False⟩)) :=
  minFlag_spec beginPts0 endPts0 10 (fun _ => false) ⟨0, 0, True, False⟩
    (by rw [log0_eq]; exact List.mem_singleton_self _)

/-- C6 counterexample: with a one-point begin track equal to the end
track's first point, the sole candidate sits at the last begin index and
the code reports between-flag false, while the claim's prediction
`isBetween(endFirstPoint, P, P)` holds — so the claim is false as
stated. -/
theorem betweenFlag_counterexample :
    (findMergePoint beginPts0 endPts0 10 (fun _ => false)).1 = [⟨0, 0, True, False⟩] ∧
    ¬ (Candidate.inBetween ⟨0, 0, True, False⟩) ∧
    LatLng.isBetween (endFirst endPts0)
      (LatLng.fromTrkPrt (beginPts0.getD 0 default))
      (LatLng.fromTrkPrt (beginPts0.getD 0 default)) := by
  refine ⟨log0_eq, fun h => h, ?_⟩
  norm_num [LatLng.isBetween, endFirst, endPts0, endPt0, beginPts0, beginPt0,
    LatLng.fromTrkPrt, List.headI]

/-- C6 witness: the candidate at the last index of a concrete two-point
begin track has between-flag false. -/
theorem betweenFlag_witness :
    (1 : ℕ) < beginPts1.length ∧ ¬ (Candidate.inBetween ⟨1, 0, True, False⟩) := by
  have h := betweenFlag_spec beginPts1 endPts0 10 (fun _ => false) ⟨1, 0, True, False⟩
    (by rw [log1_eq]; exact List.mem_cons_of_mem _ (List.mem_singleton_self _))
  refine ⟨h.1, fun hx => ?_⟩
  have h2 := (h.2.mp hx).1
  norm_num [beginPts1] at h2

/-- C7 witness: an empty begin track terminates Exhausted with zero
writes. -/
theorem search_all_or_nothing_witness :
    (findMergePoint [] endPts0 10 (fun _ => true)).2 = MergeResult.exhausted ∧
    writeCount (findMergePoint [] endPts0 10 (fun _ => true)).2 = 0 := by
  have h := (search_all_or_nothing [] endPts0 10 (fun _ => true)).2.2.1 rfl
  refine ⟨h, ?_⟩
  rw [h]
  rfl

/-- C5 witness: the first concrete example of the specification holds. -/
theorem isBetween_witness : LatLng.isBetween ⟨0, 0⟩ ⟨-1, -1⟩ ⟨1, 1⟩ :=
  isBetween_spec.2.1

/-- C8 witness: the distance from a concrete point to itself is zero. -/
theorem haversine_props_witness : haversineDist ⟨1, 2⟩ ⟨1, 2⟩ = 0 :=
  (haversine_props ⟨1, 2⟩ ⟨1, 2⟩).2.2

/-- C10 witness: the characterisation instantiated at the answer "nay". -/
theorem userConfirm_witness :
    userConfirm ['n', 'a', 'y'] = true ↔ 'y' ∈ (['n', 'a', 'y'].map Char.toLower) :=
  userConfirm_spec.1 ['n', 'a', 'y']

end MergeGpx
